/- Verification of the recommendation aggregation & ranking pipeline of
   src/app.py (restaurant recommendation system).

   Shallow embedding notes:
   * Python floats are modelled as exact rationals (ℚ); `round(x, 2)` is
     modelled as exact round-half-to-even at two decimal places (`roundTo2`).
   * Python `str.strip()`, `str.lower()` and the substring test `w in s`
     are modelled structurally on the underlying character list
     (`pyStrip`, `pyLower`, `pyContains`), so they compute in the kernel.
   * The external sentiment classifier and Python's `random` are modelled
     as oracles: each review comes paired with an `Outcome`, either
     `Outcome.ok stars` (the classifier call succeeded and its label parsed
     to `stars`) or `Outcome.fail rnd` (the call raised; `rnd` is the
     random-oracle value feeding `random.randint` in the fallback branch).
   * The Firestore collection is modelled as a list of records; a query
     filtered on equality of fields is a `List.filter`, `add` is an append.
-/
import Mathlib

/-! Python string primitives, modelled on the character list. -/

/-- Boolean test that the first list is an initial segment of the second. -/
def leadsWith : List Char → List Char → Bool
  | [], _ => true
  | _ :: _, [] => false
  | a :: as, b :: bs => a == b && leadsWith as bs

/-- Boolean substring test on character lists (`needle` occurs in the
second argument). -/
def containsSub (needle : List Char) : List Char → Bool
  | [] => needle.isEmpty
  | c :: t => leadsWith needle (c :: t) || containsSub needle t

/-- Python's `w in s` substring test. -/
def pyContains (w s : String) : Bool := containsSub w.data s.data

/-- Drop leading whitespace characters of a character list. -/
def stripL : List Char → List Char
  | [] => []
  | c :: cs => if c.isWhitespace then stripL cs else c :: cs

/-- Python's `str.strip()`: remove leading and trailing whitespace. -/
def pyStrip (s : String) : String := ⟨(stripL (stripL s.data.reverse).reverse)⟩

/-- Python's `str.lower()`. -/
def pyLower (s : String) : String := ⟨s.data.map Char.toLower⟩

/-! Python `round`, modelled exactly on ℚ. -/

/-- Round a rational to the nearest integer, ties to even (the rounding mode
of Python's built-in `round`).  `q.num / q.den` with integer division is
`⌊q⌋`, and `q.num % q.den` is the numerator of the fractional part. -/
def rhe (q : ℚ) : ℤ :=
  if 2 * (q.num % (q.den : ℤ)) < (q.den : ℤ) then q.num / (q.den : ℤ)
  else if (q.den : ℤ) < 2 * (q.num % (q.den : ℤ)) then q.num / (q.den : ℤ) + 1
  else if (q.num / (q.den : ℤ)) % 2 = 0 then q.num / (q.den : ℤ)
  else q.num / (q.den : ℤ) + 1

/-- Python's `round(q, 2)` on exact rationals. -/
def roundTo2 (q : ℚ) : ℚ := (rhe (q * 100) : ℚ) / 100

/-! Sentiment scoring of one restaurant's reviews (src/app.py lines 463-473).

For each tip the code runs the classifier inside `try:`; on success it
appends the parsed star value, and on any exception it appends a fallback
score `random.randint(3, 5)` when the tip's lowercase text contains one of
five positive keywords, else `random.randint(1, 3)`. -/

/-- Result of one classifier call: success with a parsed star value, or an
exception together with the random-oracle value used by the fallback. -/
inductive Outcome
  | ok (stars : ℤ)
  | fail (rnd : Nat)
deriving DecidableEq

/-- The keyword list of the fallback branch (src/app.py line 472). -/
def positive_words : List String := ["great", "amazing", "excellent", "love", "best"]

/-- The fallback score of the `except:` branch: `random.randint(3, 5)` for a
positive-keyword tip, `random.randint(1, 3)` otherwise.  `randint(a, a+2)`
is modelled as `a + rnd % 3` for the oracle value `rnd`. -/
def fallback_sentiment (tip : String) (rnd : Nat) : ℤ :=
  if positive_words.any (fun w => pyContains w (pyLower tip)) then 3 + ((rnd % 3 : Nat) : ℤ)
  else 1 + ((rnd % 3 : Nat) : ℤ)

/-- The score one review contributes to `sentiments`: the classifier result
when the call succeeded, the fallback score when it raised. -/
def scoreTip (tip : String) (o : Outcome) : ℤ :=
  match o with
  | .ok stars => stars
  | .fail rnd => fallback_sentiment tip rnd

/-- The `sentiments` list built by the loop of lines 464-473: one entry per
review in `R` (a review paired with its classifier outcome). -/
def sentiments (R : List (String × Outcome)) : List ℤ :=
  R.map (fun p => scoreTip p.1 p.2)

/-- `"Reviews": len(sentiments)` (line 486): the stored review count. -/
def reviewCount (R : List (String × Outcome)) : Nat := (sentiments R).length

/-- Modelled from the spec: the number of successfully scored reviews, i.e.
reviews whose classifier call returned a value (spec §3, `reviewCount`). -/
def specSuccessCount (R : List (String × Outcome)) : Nat :=
  (R.filter (fun p => match p.2 with | .ok _ => true | .fail _ => false)).length

/-- `avg_rating = round(sum(sentiments) / len(sentiments), 2) if sentiments
else 0` (line 478). -/
def avg_rating (ss : List ℤ) : ℚ :=
  if ss = [] then 0 else roundTo2 ((ss.sum : ℚ) / (ss.length : ℚ))

/-! Per-restaurant result rows (the dict appended at src/app.py lines
480-490).  The dict key `"NumReviews"` always duplicates `"Reviews"`
(both are `len(sentiments)`), so it is not repeated here; `"Stars"` is a
display string derived from `rating` and is not used by any ranking code,
so it is kept as an opaque field. -/

/-- One entry of `st.session_state.results`. -/
structure RRow where
  restaurant : String
  address : String
  mapsLink : String
  rating : ℚ
  stars : String
  reviews : Nat
  image : String
  tips : List String
deriving DecidableEq

/-- `reviewed_restaurants = [r for r in results if r["Reviews"] > 0]`
(line 572). -/
def reviewed_restaurants (results : List RRow) : List RRow :=
  results.filter (fun r => decide (0 < r.reviews))

/-- Stable insertion into a list kept in descending `rating` order: the new
element goes before the first element whose rating is not larger, so
earlier input elements stay before later ones of equal rating. -/
def insertDesc (x : RRow) : List RRow → List RRow
  | [] => [x]
  | y :: ys => if y.rating ≤ x.rating then x :: y :: ys else y :: insertDesc x ys

/-- Python's stable `sorted(rows, key=lambda x: x["Rating"], reverse=True)`
(lines 573 and 651), as a stable insertion sort. -/
def sortByRatingDesc : List RRow → List RRow
  | [] => []
  | x :: xs => insertDesc x (sortByRatingDesc xs)

/-- `top3 = sorted(reviewed_restaurants, ...)[:3]` (line 573). -/
def top3 (results : List RRow) : List RRow :=
  (sortByRatingDesc (reviewed_restaurants results)).take 3

/-- Python's `max(xs, key=lambda x: x["Rating"])` starting from `x`: scan
the rest, replacing the current best only on a strictly larger rating, so
the first maximal element wins. -/
def pyMax (x : RRow) : List RRow → RRow
  | [] => x
  | y :: ys => if x.rating < y.rating then pyMax y ys else pyMax x ys

/-- The top pick of lines 631-646: `max(reviewed_restaurants, key=Rating)`
when `reviewed_restaurants` is non-empty, and no pick (the warning branch)
otherwise. -/
def topPick (results : List RRow) : Option RRow :=
  match reviewed_restaurants results with
  | [] => none
  | r :: rs => some (pyMax r rs)

/-- The gallery section (lines 611-619) iterates over
`st.session_state.results[:6]`: the first six result rows in input order. -/
def gallery_rows (results : List RRow) : List RRow := results.take 6

/-! The Firestore history collection (src/app.py lines 330-354). -/

/-- One document of the `"recommendations"` collection, with the keys of
the `top_pick` dict (lines 635-643) plus the `timestamp` added by
`append_history`; `timestamp` is an abstract instant (the dict has no
timestamp until `append_history` assigns one). -/
structure HistoryRecord where
  restaurant : String
  rating : ℚ
  address : String
  mapsLink : String
  food : String
  location : String
  reviewCount : Nat
  timestamp : Nat
deriving DecidableEq

/-- The duplicate-check query of lines 339-343: equality on the stored
`Restaurant`, `Food` and `Location` fields against the (raw) restaurant
name and the given food and location strings. -/
def keyMatch (restaurant food location : String) (rec : HistoryRecord) : Bool :=
  decide (rec.restaurant = restaurant) && decide (rec.food = food)
    && decide (rec.location = location)

/-- `append_history(data_dict)` (lines 330-354): strip food and location;
skip when either is empty; skip when a record matching
(`Restaurant`, stripped `Food`, stripped `Location`) already exists; else
append `data_dict` (whose own `Food`/`Location` fields stay unstripped)
with a timestamp.  `now` is the value of `datetime.now()`. -/
def append_history (d : HistoryRecord) (now : Nat) (store : List HistoryRecord) :
    List HistoryRecord :=
  if pyStrip d.food = "" ∨ pyStrip d.location = "" then store
  else if 0 < (store.filter
      (keyMatch d.restaurant (pyStrip d.food) (pyStrip d.location))).length then store
  else store ++ [{ d with timestamp := now }]

/-- The `top_pick` dict built at lines 635-643 from the winning row and the
search inputs (its timestamp slot is filled later by `append_history`). -/
def mkTopPick (top : RRow) (food location : String) : HistoryRecord :=
  { restaurant := top.restaurant, rating := top.rating, address := top.address,
    mapsLink := top.mapsLink, food := food, location := location,
    reviewCount := top.reviews, timestamp := 0 }

/-- The history step of the pipeline (lines 631-646): when
`reviewed_restaurants` is non-empty, build `top_pick` from the maximum and
call `append_history`; otherwise only a warning is shown and the store is
untouched. -/
def topPickStep (results : List RRow) (food location : String) (now : Nat)
    (store : List HistoryRecord) : List HistoryRecord :=
  match topPick results with
  | none => store
  | some top => append_history (mkTopPick top food location) now store

/-! Basic facts about the rounding function. -/

lemma den_int_pos (q : ℚ) : (0 : ℤ) < (q.den : ℤ) := by exact_mod_cast q.den_pos

lemma rhe_cases (q : ℚ) : rhe q = ⌊q⌋ ∨ rhe q = ⌊q⌋ + 1 := by
  unfold rhe
  rw [← Rat.floor_def]
  split_ifs with h1 h2 h3
  · exact Or.inl rfl
  · exact Or.inr rfl
  · exact Or.inl rfl
  · exact Or.inr rfl

lemma rhe_ge_floor (q : ℚ) : ⌊q⌋ ≤ rhe q := by
  rcases rhe_cases q with h | h <;> omega

/-- A rational is its floor plus the (nonnegative) remainder over the
denominator. -/
lemma rat_decompose (q : ℚ) :
    q = (⌊q⌋ : ℚ) + ((q.num % (q.den : ℤ) : ℤ) : ℚ) / ((q.den : ℤ) : ℚ) := by
  have hd0 : (0 : ℚ) < ((q.den : ℤ) : ℚ) := by exact_mod_cast q.den_pos
  have hq : q = (q.num : ℚ) / ((q.den : ℤ) : ℚ) := by
    rw [Int.cast_natCast, Rat.num_div_den]
  have hnum : (q.num : ℚ) = ((q.den : ℤ) : ℚ) * (⌊q⌋ : ℚ)
      + ((q.num % (q.den : ℤ) : ℤ) : ℚ) := by
    have h := Int.ediv_add_emod q.num (q.den : ℤ)
    rw [Rat.floor_def]
    exact_mod_cast h.symm
  conv_lhs => rw [hq, hnum]
  rw [add_div, mul_div_cancel_left₀ _ (ne_of_gt hd0)]

lemma floor_lt_ceil_of_emod_pos (q : ℚ) (h : 0 < q.num % (q.den : ℤ)) :
    ⌊q⌋ < ⌈q⌉ := by
  have hd0 : (0 : ℚ) < ((q.den : ℤ) : ℚ) := by exact_mod_cast q.den_pos
  have hfrac : (0 : ℚ) < ((q.num % (q.den : ℤ) : ℤ) : ℚ) / ((q.den : ℤ) : ℚ) :=
    div_pos (by exact_mod_cast h) hd0
  have hlt : (⌊q⌋ : ℚ) < q := by
    conv_rhs => rw [rat_decompose q]
    linarith
  exact Int.lt_ceil.mpr hlt

lemma rhe_le_ceil (q : ℚ) : rhe q ≤ ⌈q⌉ := by
  have hd : (0 : ℤ) < (q.den : ℤ) := den_int_pos q
  have hr0 : 0 ≤ q.num % (q.den : ℤ) := Int.emod_nonneg q.num (by omega)
  have hfl := Int.floor_le_ceil q
  unfold rhe
  rw [← Rat.floor_def]
  split_ifs with h1 h2 h3
  · exact hfl
  · have := floor_lt_ceil_of_emod_pos q (by omega)
    omega
  · exact hfl
  · have := floor_lt_ceil_of_emod_pos q (by omega)
    omega

lemma rhe_intCast (n : ℤ) : rhe (n : ℚ) = n := by
  unfold rhe
  simp [Rat.num_intCast, Rat.den_intCast]

lemma roundTo2_nonneg (q : ℚ) (h : 0 ≤ q) : 0 ≤ roundTo2 q := by
  unfold roundTo2
  have h1 : (0 : ℤ) ≤ ⌊q * 100⌋ := Int.floor_nonneg.mpr (by positivity)
  have h2 := rhe_ge_floor (q * 100)
  have h3 : (0 : ℚ) ≤ (rhe (q * 100) : ℚ) := by exact_mod_cast (by omega : (0:ℤ) ≤ rhe (q * 100))
  positivity

lemma roundTo2_le_intCast (q : ℚ) (B : ℤ) (h : q ≤ (B : ℚ)) : roundTo2 q ≤ (B : ℚ) := by
  unfold roundTo2
  have h1 : ⌈q * 100⌉ ≤ 100 * B := by
    apply Int.ceil_le.mpr
    push_cast
    linarith
  have h2 := rhe_le_ceil (q * 100)
  have h3 : (rhe (q * 100) : ℚ) ≤ ((100 * B : ℤ) : ℚ) := by exact_mod_cast (by omega : rhe (q * 100) ≤ 100 * B)
  rw [div_le_iff₀ (by norm_num : (0:ℚ) < 100)]
  push_cast at h3 ⊢
  linarith

lemma roundTo2_intCast (n : ℤ) : roundTo2 (n : ℚ) = (n : ℚ) := by
  unfold roundTo2
  have h : (n : ℚ) * 100 = ((n * 100 : ℤ) : ℚ) := by push_cast; ring
  rw [h, rhe_intCast]
  push_cast
  ring

/-! Facts about the scoring loop and the average. -/

lemma fallback_sentiment_bounds (tip : String) (rnd : Nat) :
    1 ≤ fallback_sentiment tip rnd ∧ fallback_sentiment tip rnd ≤ 5 := by
  unfold fallback_sentiment
  have h3 : rnd % 3 < 3 := Nat.mod_lt _ (by omega)
  split <;> constructor <;> omega

lemma sentiments_mem_bounds (R : List (String × Outcome))
    (hok : ∀ p ∈ R, ∀ s, p.2 = Outcome.ok s → 1 ≤ s ∧ s ≤ 5) :
    ∀ v ∈ sentiments R, 1 ≤ v ∧ v ≤ 5 := by
  intro v hv
  rw [sentiments, List.mem_map] at hv
  obtain ⟨p, hp, rfl⟩ := hv
  cases ho : p.2 with
  | ok s =>
    simp only [scoreTip, ho]
    exact hok p hp s ho
  | fail rnd =>
    simp only [scoreTip, ho]
    exact fallback_sentiment_bounds p.1 rnd

lemma list_sum_le_five (l : List ℤ) (h : ∀ v ∈ l, v ≤ 5) :
    l.sum ≤ 5 * l.length := by
  induction l with
  | nil => simp
  | cons a t ih =>
    have ha := h a (List.mem_cons_self a t)
    have ht := ih fun v hv => h v (List.mem_cons_of_mem a hv)
    simp only [List.sum_cons, List.length_cons]
    push_cast
    omega

lemma list_sum_nonneg (l : List ℤ) (h : ∀ v ∈ l, 1 ≤ v) : 0 ≤ l.sum := by
  induction l with
  | nil => simp
  | cons a t ih =>
    have ha := h a (List.mem_cons_self a t)
    have ht := ih fun v hv => h v (List.mem_cons_of_mem a hv)
    simp only [List.sum_cons]
    omega

/-! Claim C1: review-count versus classifier failures. -/

/-- A single review whose classifier call raises. -/
def failedReview : List (String × Outcome) := [("bad food", Outcome.fail 0)]

/-- C1 counterexample: the claim says a review whose classifier call fails
contributes no score and `reviewCount` counts only successfully scored
reviews; but on one review with a failing classifier call, the code stores
`reviewCount = 1` while zero reviews were successfully scored. -/
theorem claim1_cex :
    reviewCount failedReview = 1 ∧ specSuccessCount failedReview = 0 := by
  decide

/-- C1 (amended): the `except:` branch appends a fallback score, so every
review contributes one entry of `sentiments` and the stored review count
equals the raw review count; in particular `reviewCount R ≤ len R` does
hold (with equality). -/
theorem claim1_amended (R : List (String × Outcome)) :
    reviewCount R = R.length ∧ reviewCount R ≤ R.length := by
  constructor
  · exact List.length_map R _
  · exact le_of_eq (List.length_map R _)

/-! Claim C2: the all-successes average. -/

/-- C2: when every review of `R` scores successfully with the integer star
values `scores`, the stored average is the arithmetic mean of `scores`
rounded (half-to-even) to two decimal places, and it is `0` when no scores
exist. -/
theorem claim2 (R : List (String × Outcome)) (scores : List ℤ)
    (hall : R.map Prod.snd = scores.map Outcome.ok) :
    avg_rating (sentiments R) =
      if scores = [] then 0
      else roundTo2 ((scores.sum : ℚ) / (scores.length : ℚ)) := by
  have hs : sentiments R = scores := by
    induction R generalizing scores with
    | nil =>
      cases scores with
      | nil => rfl
      | cons a t => simp at hall
    | cons p R ih =>
      cases scores with
      | nil => simp at hall
      | cons a t =>
        simp only [List.map_cons, List.cons.injEq] at hall
        simp only [sentiments, List.map_cons, List.cons.injEq]
        constructor
        · rw [show scoreTip p.1 p.2 = scoreTip p.1 (Outcome.ok a) from by rw [hall.1]]
          rfl
        · exact ih t hall.2
  rw [hs, avg_rating]

/-- Two reviews scored successfully as 5 and 3. -/
def allOkReviews : List (String × Outcome) := [("good", Outcome.ok 5), ("fine", Outcome.ok 3)]

/-- C2 witness: on the concrete all-success input the stored average is 4. -/
theorem claim2_witness : avg_rating (sentiments allOkReviews) = 4 := by
  have h := claim2 allOkReviews [5, 3] (by rfl)
  rw [h, if_neg (by decide)]
  have h2 : ((([5, 3] : List ℤ).sum : ℚ) / (([5, 3] : List ℤ).length : ℚ)) = ((4 : ℤ) : ℚ) := by
    norm_num
  rw [h2, roundTo2_intCast]
  norm_num

/-! Claim C6: invariants of the aggregate. -/

/-- C6: for every review sequence and every classifier outcome (the
classifier honouring its 1-5 star interface when it succeeds), the stored
aggregate satisfies `reviewCount = 0 → averageScore = 0` and
`0 ≤ averageScore ≤ 5`. -/
theorem claim6 (R : List (String × Outcome))
    (hok : ∀ p ∈ R, ∀ s, p.2 = Outcome.ok s → 1 ≤ s ∧ s ≤ 5) :
    (reviewCount R = 0 → avg_rating (sentiments R) = 0) ∧
    0 ≤ avg_rating (sentiments R) ∧ avg_rating (sentiments R) ≤ 5 := by
  have hb := sentiments_mem_bounds R hok
  have h0 : avg_rating ([] : List ℤ) = 0 := rfl
  by_cases hE : sentiments R = []
  · rw [hE, h0]
    refine ⟨fun _ => rfl, le_refl 0, by norm_num⟩
  · have hlen : 0 < (sentiments R).length := List.length_pos.mpr hE
    have hlenQ : (0 : ℚ) < ((sentiments R).length : ℚ) := by exact_mod_cast hlen
    have hsum0 : (0 : ℤ) ≤ (sentiments R).sum :=
      list_sum_nonneg _ fun v hv => (hb v hv).1
    have hsum5 : (sentiments R).sum ≤ 5 * (sentiments R).length :=
      list_sum_le_five _ fun v hv => (hb v hv).2
    have hm0 : (0 : ℚ) ≤ ((sentiments R).sum : ℚ) / ((sentiments R).length : ℚ) :=
      div_nonneg (by exact_mod_cast hsum0) (le_of_lt hlenQ)
    have hm5 : ((sentiments R).sum : ℚ) / ((sentiments R).length : ℚ) ≤ ((5 : ℤ) : ℚ) := by
      rw [div_le_iff₀ hlenQ]
      exact_mod_cast hsum5
    have havg : avg_rating (sentiments R) =
        roundTo2 (((sentiments R).sum : ℚ) / ((sentiments R).length : ℚ)) := by
      rw [avg_rating, if_neg hE]
    refine ⟨fun hc => absurd hc (by simp only [reviewCount]; omega), ?_, ?_⟩
    · rw [havg]
      exact roundTo2_nonneg _ hm0
    · rw [havg]
      have := roundTo2_le_intCast _ 5 hm5
      exact_mod_cast this

/-- One failed and one successful review, the successful one within 1-5. -/
def mixedReviews : List (String × Outcome) := [("great stuff", Outcome.fail 2), ("meh", Outcome.ok 2)]

/-- C6 witness: at the concrete mixed input the invariants hold. -/
theorem claim6_witness :
    0 ≤ avg_rating (sentiments mixedReviews) ∧ avg_rating (sentiments mixedReviews) ≤ 5 := by
  have hok : ∀ p ∈ mixedReviews, ∀ s, p.2 = Outcome.ok s → 1 ≤ s ∧ s ≤ 5 := by
    intro p hp s hs
    simp only [mixedReviews, List.mem_cons, List.not_mem_nil, or_false] at hp
    rcases hp with rfl | rfl
    · exact absurd hs (by simp)
    · simp only [Outcome.ok.injEq] at hs
      omega
  exact (claim6 mixedReviews hok).2

/-! Facts about `pyMax` (Python's first-maximum `max(..., key=...)`) and the
stable descending sort. -/

lemma pyMax_le (x : RRow) (ys : List RRow) :
    ∀ a ∈ x :: ys, a.rating ≤ (pyMax x ys).rating := by
  induction ys generalizing x with
  | nil =>
    intro a ha
    rw [List.mem_singleton] at ha
    subst ha
    exact le_refl _
  | cons y ys ih =>
    intro a ha
    rw [pyMax]
    split
    · rename_i hxy
      rcases List.mem_cons.mp ha with rfl | ha
      · exact le_trans (le_of_lt hxy) (ih y y (List.mem_cons_self y ys))
      · exact ih y a ha
    · rename_i hxy
      rcases List.mem_cons.mp ha with rfl | ha
      · exact ih a a (List.mem_cons_self a ys)
      · rcases List.mem_cons.mp ha with rfl | ha
        · exact le_trans (le_of_not_lt hxy) (ih x x (List.mem_cons_self x ys))
        · exact ih x a (List.mem_cons_of_mem x ha)

/-- `pyMax x ys` is an element of `x :: ys`; everything before it is
strictly smaller, everything after it is no larger (first-seen wins). -/
lemma pyMax_spec (x : RRow) (ys : List RRow) :
    ∃ l1 l2, x :: ys = l1 ++ pyMax x ys :: l2 ∧
      (∀ a ∈ l1, a.rating < (pyMax x ys).rating) ∧
      (∀ a ∈ l2, a.rating ≤ (pyMax x ys).rating) := by
  induction ys generalizing x with
  | nil =>
    exact ⟨[], [], rfl, by simp, by simp⟩
  | cons y ys ih =>
    by_cases h : x.rating < y.rating
    · obtain ⟨l1, l2, heq, h1, h2⟩ := ih y
      have hstep : pyMax x (y :: ys) = pyMax y ys := by rw [pyMax, if_pos h]
      have hxm : x.rating < (pyMax y ys).rating :=
        lt_of_lt_of_le h (pyMax_le y ys y (List.mem_cons_self y ys))
      refine ⟨x :: l1, l2, ?_, ?_, ?_⟩
      · rw [hstep, List.cons_append, ← heq]
      · intro a ha
        rw [hstep]
        rcases List.mem_cons.mp ha with rfl | ha
        · exact hxm
        · exact h1 a ha
      · intro a ha
        rw [hstep]
        exact h2 a ha
    · obtain ⟨l1, l2, heq, h1, h2⟩ := ih x
      have hstep : pyMax x (y :: ys) = pyMax x ys := by rw [pyMax, if_neg h]
      have hyx : y.rating ≤ x.rating := le_of_not_lt h
      cases l1 with
      | nil =>
        simp only [List.nil_append] at heq
        injection heq with hx hys
        refine ⟨[], y :: ys, ?_, by simp, ?_⟩
        · rw [hstep, ← hx, List.nil_append]
        · intro a ha
          rw [hstep, ← hx]
          rcases List.mem_cons.mp ha with rfl | ha
          · exact hyx
          · rw [hx]
            exact le_trans (h2 a (hys ▸ ha)) (le_of_eq (by rw [hx]))
      | cons b l1 =>
        rw [List.cons_append] at heq
        injection heq with hx hys
        have hxm : x.rating < (pyMax x ys).rating := by
          have hb := h1 b (List.mem_cons_self b l1)
          rwa [← hx] at hb
        refine ⟨x :: y :: l1, l2, ?_, ?_, ?_⟩
        · rw [hstep, List.cons_append, List.cons_append, ← hys]
        · intro a ha
          rw [hstep]
          rcases List.mem_cons.mp ha with rfl | ha
          · exact hxm
          · rcases List.mem_cons.mp ha with rfl | ha
            · exact lt_of_le_of_lt hyx hxm
            · exact h1 a (List.mem_cons_of_mem b ha)
        · intro a ha
          rw [hstep]
          exact h2 a ha

lemma insertDesc_perm (x : RRow) (l : List RRow) : (insertDesc x l).Perm (x :: l) := by
  induction l with
  | nil => exact List.Perm.refl _
  | cons y ys ih =>
    rw [insertDesc]
    split
    · exact List.Perm.refl _
    · exact (List.Perm.cons y ih).trans (List.Perm.swap x y ys)

lemma sortByRatingDesc_perm (l : List RRow) : (sortByRatingDesc l).Perm l := by
  induction l with
  | nil => exact List.Perm.refl _
  | cons x xs ih =>
    rw [sortByRatingDesc]
    exact (insertDesc_perm x (sortByRatingDesc xs)).trans (List.Perm.cons x ih)

lemma mem_insertDesc (a x : RRow) (l : List RRow) :
    a ∈ insertDesc x l ↔ a = x ∨ a ∈ l := by
  rw [(insertDesc_perm x l).mem_iff, List.mem_cons]

lemma insertDesc_sorted (x : RRow) (l : List RRow)
    (h : l.Pairwise (fun a b => b.rating ≤ a.rating)) :
    (insertDesc x l).Pairwise (fun a b => b.rating ≤ a.rating) := by
  induction l with
  | nil => simp [insertDesc]
  | cons y ys ih =>
    rw [insertDesc]
    rcases List.pairwise_cons.mp h with ⟨hy, hys⟩
    split
    · rename_i hc
      refine List.pairwise_cons.mpr ⟨?_, h⟩
      intro b hb
      rcases List.mem_cons.mp hb with rfl | hb
      · exact hc
      · exact le_trans (hy b hb) hc
    · rename_i hc
      refine List.pairwise_cons.mpr ⟨?_, ih hys⟩
      intro b hb
      rcases (mem_insertDesc b x ys).mp hb with rfl | hb
      · exact le_of_lt (lt_of_not_le hc)
      · exact hy b hb

lemma sortByRatingDesc_sorted (l : List RRow) :
    (sortByRatingDesc l).Pairwise (fun a b => b.rating ≤ a.rating) := by
  induction l with
  | nil => simp [sortByRatingDesc]
  | cons x xs ih => exact insertDesc_sorted x _ ih

lemma filter_insertDesc (c : ℚ) (x : RRow) (l : List RRow) :
    (insertDesc x l).filter (fun r => decide (r.rating = c)) =
      if x.rating = c then x :: l.filter (fun r => decide (r.rating = c))
      else l.filter (fun r => decide (r.rating = c)) := by
  induction l with
  | nil =>
    by_cases hxc : x.rating = c <;> simp [insertDesc, List.filter, hxc]
  | cons y ys ih =>
    rw [insertDesc]
    split
    · by_cases hxc : x.rating = c <;> simp [List.filter_cons, hxc]
    · rename_i hc
      by_cases hxc : x.rating = c
      · have hyne : ¬ y.rating = c := by
          intro hyc
          exact hc (le_of_eq (hyc.trans hxc.symm))
        simp [List.filter_cons, hxc, hyne, ih]
      · by_cases hyc : y.rating = c <;> simp [List.filter_cons, hxc, hyc, ih]

lemma filter_sortByRatingDesc (c : ℚ) (l : List RRow) :
    (sortByRatingDesc l).filter (fun r => decide (r.rating = c)) =
      l.filter (fun r => decide (r.rating = c)) := by
  induction l with
  | nil => rfl
  | cons x xs ih =>
    rw [sortByRatingDesc, filter_insertDesc, ih]
    by_cases hxc : x.rating = c <;> simp [List.filter_cons, hxc]

lemma reviewed_nil_of_all_zero (results : List RRow)
    (h : ∀ r ∈ results, r.reviews = 0) : reviewed_restaurants results = [] := by
  rw [reviewed_restaurants, List.filter_eq_nil_iff]
  intro a ha
  simp [h a ha]

/-! Claim C4: the top pick. -/

/-- C4: `topPick` is total (no exception): it returns the no-pick sentinel
on any input whose restaurants all have zero reviews (the empty input
included), and otherwise returns the restaurant that comes first among the
maximal-rating reviewed restaurants: strictly smaller ratings before it,
no larger rating after it, in input order restricted to reviewed rows. -/
theorem claim4 (results : List RRow) :
    ((∀ r ∈ results, r.reviews = 0) → topPick results = none) ∧
    ∀ t, topPick results = some t →
      0 < t.reviews ∧
      ∃ l1 l2, reviewed_restaurants results = l1 ++ t :: l2 ∧
        (∀ a ∈ l1, a.rating < t.rating) ∧
        (∀ a ∈ l2, a.rating ≤ t.rating) := by
  constructor
  · intro h
    rw [topPick, reviewed_nil_of_all_zero results h]
  · intro t ht
    rw [topPick] at ht
    cases hrev : reviewed_restaurants results with
    | nil =>
      rw [hrev] at ht
      exact absurd ht (by simp)
    | cons r rs =>
      rw [hrev] at ht
      simp only [Option.some.injEq] at ht
      subst ht
      obtain ⟨l1, l2, heq, h1, h2⟩ := pyMax_spec r rs
      have hmem : pyMax r rs ∈ reviewed_restaurants results := by
        rw [hrev, heq]
        exact List.mem_append_right _ (List.mem_cons_self _ _)
      have hpos : 0 < (pyMax r rs).reviews := by
        have hf := List.mem_filter.mp (by rw [reviewed_restaurants] at hmem; exact hmem)
        simpa using hf.2
      exact ⟨hpos, l1, l2, heq, h1, h2⟩

/-- Concrete reviewed rows with equal top rating, and a zero-review row. -/
def rowX : RRow := ⟨"X", "a1", "m1", 5, "sss", 1, "i1", []⟩

def rowY : RRow := ⟨"Y", "a2", "m2", 5, "sss", 1, "i2", []⟩

def rowZero : RRow := ⟨"Spot", "a3", "m3", 0, "No reviews", 0, "i3", []⟩

/-- C4 witness: a zero-review input yields no pick, and on two reviewed
rows tied at rating 5 the earlier row `rowX` is the pick. -/
theorem claim4_witness :
    topPick [rowZero] = none ∧
    (∃ l1 l2, reviewed_restaurants [rowX, rowY] = l1 ++ rowX :: l2 ∧
      (∀ a ∈ l1, a.rating < rowX.rating) ∧
      (∀ a ∈ l2, a.rating ≤ rowX.rating)) :=
  ⟨(claim4 [rowZero]).1 (by decide), ((claim4 [rowX, rowY]).2 rowX (by decide)).2⟩

/-! Claim C5: ranking by rating descending is a stable sort. -/

/-- C5: the model of `sorted(..., key=Rating, reverse=True)` is a
permutation of its input, is sorted with ratings descending, and is
stable: for every rating value `c`, the rows of rating `c` appear in the
output in exactly their input order. -/
theorem claim5 (rs : List RRow) :
    (sortByRatingDesc rs).Perm rs ∧
    (sortByRatingDesc rs).Pairwise (fun a b => b.rating ≤ a.rating) ∧
    ∀ c : ℚ, (sortByRatingDesc rs).filter (fun r => decide (r.rating = c)) =
      rs.filter (fun r => decide (r.rating = c)) :=
  ⟨sortByRatingDesc_perm rs, sortByRatingDesc_sorted rs,
    fun c => filter_sortByRatingDesc c rs⟩

/-! Claim C7: the gallery. -/

/-- A zero-review row with an empty image URL. -/
def spotRow : RRow := ⟨"Spot", "addr", "maps", 0, "No reviews", 0, "", []⟩

/-- C7 counterexample: the claim says the gallery contains only restaurants
with at least one scored review (and a non-empty image); but the gallery of
a single zero-review, empty-image restaurant contains that restaurant. -/
theorem claim7_cex :
    spotRow ∈ gallery_rows [spotRow] ∧ spotRow.reviews = 0 ∧ spotRow.image = "" := by
  refine ⟨?_, rfl, rfl⟩
  decide

/-- C7 (amended): the gallery is the first `min 6 (len results)` rows of
the search results in their original input order, with no filtering by
review count or image and no re-ranking. -/
theorem claim7_amended (results : List RRow) :
    (∃ rest, results = gallery_rows results ++ rest) ∧
    (gallery_rows results).length = min 6 results.length ∧
    ∀ r ∈ gallery_rows results, r ∈ results := by
  refine ⟨⟨results.drop 6, (List.take_append_drop 6 results).symm⟩,
    List.length_take 6 results, ?_⟩
  intro r hr
  exact List.mem_of_mem_take hr

/-- C7 amended-claim witness at the concrete one-row input. -/
theorem claim7_amended_witness :
    (∃ rest, [spotRow] = gallery_rows [spotRow] ++ rest) ∧
    (gallery_rows [spotRow]).length = min 6 [spotRow].length ∧
    ∀ r ∈ gallery_rows [spotRow], r ∈ [spotRow] :=
  claim7_amended [spotRow]

/-! Facts about `append_history`. -/

/-- The early-return of lines 331-335: a blank (empty after stripping) food
or location means the store is untouched. -/
lemma append_history_skip (d : HistoryRecord) (now : Nat) (store : List HistoryRecord)
    (h : pyStrip d.food = "" ∨ pyStrip d.location = "") :
    append_history d now store = store := by
  rw [append_history, if_pos h]

/-! Claim C8: empty food or location is a no-op. -/

/-- C8: when the food query or the location is the empty string,
`append_history` returns with the store unchanged. -/
theorem claim8 (d : HistoryRecord) (now : Nat) (store : List HistoryRecord)
    (h : d.food = "" ∨ d.location = "") :
    append_history d now store = store := by
  apply append_history_skip
  rcases h with h | h
  · exact Or.inl (by rw [h]; rfl)
  · exact Or.inr (by rw [h]; rfl)

/-- A pick whose food query is empty. -/
def emptyFoodPick : HistoryRecord := ⟨"Joe", 4, "A", "M", "", "Lagos", 2, 0⟩

/-- C8 witness: the empty-food pick leaves the empty store empty. -/
theorem claim8_witness : append_history emptyFoodPick 3 [] = [] :=
  claim8 emptyFoodPick 3 [] (Or.inl rfl)

/-! Claim C10: stripping happens before the emptiness check. -/

/-- C10: `append_history` strips the food query and location first, so any
input whose food or location strips to the empty string (in particular a
whitespace-only one) is a no-op and the store is unchanged. -/
theorem claim10 (d : HistoryRecord) (now : Nat) (store : List HistoryRecord)
    (h : pyStrip d.food = "" ∨ pyStrip d.location = "") :
    append_history d now store = store :=
  append_history_skip d now store h

/-- A pick whose food query is whitespace only. -/
def blankFoodPick : HistoryRecord := ⟨"Joe", 4, "A", "M", "   ", "Lagos", 2, 0⟩

/-- C10 witness: a whitespace-only food query leaves the store unchanged. -/
theorem claim10_witness : append_history blankFoodPick 3 [] = [] :=
  claim10 blankFoodPick 3 [] (Or.inl (by decide))

/-! Claim C3: idempotence of the history write. -/

/-- A pick whose food query carries surrounding whitespace. -/
def paddedPick : HistoryRecord := ⟨"Joe", 4, "A", "M", " pizza ", "Lagos", 2, 0⟩

/-- C3 counterexample: called twice with the identical arguments
(`Restaurant = "Joe"`, `Food = " pizza "`, `Location = "Lagos"`) on an
empty store, `append_history` stores two records with that key, not one:
the duplicate query compares the stripped food against the unstripped
stored field, so the second call never sees the first record. -/
theorem claim3_cex :
    ((append_history paddedPick 1 (append_history paddedPick 0 [])).filter
      (keyMatch "Joe" " pizza " "Lagos")).length = 2 := by decide

/-- C3 (amended): when the food query and location are non-empty and carry
no surrounding whitespace (so stripping fixes them), `append_history` is
idempotent: starting from a store with no record matching the dedup key,
two identical calls leave exactly one matching record. -/
theorem claim3_amended (d : HistoryRecord) (t1 t2 : Nat) (store : List HistoryRecord)
    (hf : pyStrip d.food = d.food) (hl : pyStrip d.location = d.location)
    (hf0 : d.food ≠ "") (hl0 : d.location ≠ "")
    (h0 : store.filter (keyMatch d.restaurant d.food d.location) = []) :
    ((append_history d t2 (append_history d t1 store)).filter
      (keyMatch d.restaurant d.food d.location)).length = 1 := by
  have hcond : ¬(pyStrip d.food = "" ∨ pyStrip d.location = "") := by
    rw [hf, hl]
    push_neg
    exact ⟨hf0, hl0⟩
  have hself : keyMatch d.restaurant d.food d.location { d with timestamp := t1 } = true := by
    simp [keyMatch]
  have h1 : append_history d t1 store = store ++ [{ d with timestamp := t1 }] := by
    rw [append_history, if_neg hcond, hf, hl, h0]
    simp
  have h2 : append_history d t2 (store ++ [{ d with timestamp := t1 }]) =
      store ++ [{ d with timestamp := t1 }] := by
    rw [append_history, if_neg hcond, hf, hl, List.filter_append, h0, List.nil_append,
      List.filter_cons, if_pos hself]
    simp
  rw [h1, h2, List.filter_append, h0, List.nil_append, List.filter_cons, if_pos hself]
  simp

/-- A pick with already-stripped, non-empty food query and location. -/
def cleanPick : HistoryRecord := ⟨"Joe", 4, "A", "M", "pizza", "Lagos", 2, 0⟩

/-- C3 amended-claim witness: two identical calls with the stripped key
("Joe", "pizza", "Lagos") on the empty store leave exactly one matching
record. -/
theorem claim3_witness :
    ((append_history cleanPick 2 (append_history cleanPick 1 [])).filter
      (keyMatch cleanPick.restaurant cleanPick.food cleanPick.location)).length = 1 :=
  claim3_amended cleanPick 1 2 [] (by decide) (by decide) (by decide) (by decide) rfl

/-! Claim C9: no history write without a reviewed restaurant. -/

/-- C9: the history write step is reached only when the reviewed-restaurant
set of the results is non-empty: on results with no reviewed restaurant the
pipeline leaves the store unchanged. -/
theorem claim9 (results : List RRow) (food location : String) (now : Nat)
    (store : List HistoryRecord)
    (h : ∀ r ∈ results, r.reviews = 0) :
    topPickStep results food location now store = store := by
  rw [topPickStep, topPick, reviewed_nil_of_all_zero results h]

/-- C9 witness: a single zero-review restaurant writes nothing. -/
theorem claim9_witness : topPickStep [rowZero] "pizza" "Lagos" 7 [] = [] :=
  claim9 [rowZero] "pizza" "Lagos" 7 [] (by decide)
